import Mathlib

/-!
Verification of the offer parsing and change detection logic of the
telco-scanner repository (src/main.py), shallowly embedded in Lean 4.

The embedding follows `parse_offer_text` and the remark computation of
`process_data` line by line:

* Python `pat in line` (substring test) is `containsStr`;
* `re.search` with an alternation of literal strings under `re.IGNORECASE`
  is a case-insensitive substring test (`containsCI`);
* the patterns `\d+\s*(GB|MB)`, `\d+\s*Mins`, `\d+\s*SMS` are embedded by
  the scanner `numUnitSearch` (a maximal munch of digits then whitespace is
  equivalent to the regex here because neither a digit nor a whitespace
  character can start the unit literal);
* `re.search(r'[\d,]+', line)` is `firstNumRun`.
-/

namespace Telco

/-! ## String scanning primitives -/

/-- Leading and trailing whitespace removed, as Python `str.strip()`. -/
def trimChars (cs : List Char) : List Char :=
  ((cs.dropWhile Char.isWhitespace).reverse.dropWhile Char.isWhitespace).reverse

/-- Python `str.strip()`. -/
def pyStrip (s : String) : String :=
  String.mk (trimChars s.data)

/-- Helper for `splitNl`: `acc` holds the current piece reversed. -/
def splitNlAux : List Char → List Char → List String
  | acc, [] => [String.mk acc.reverse]
  | acc, c :: cs =>
    if c == '\n' then String.mk acc.reverse :: splitNlAux [] cs
    else splitNlAux (c :: acc) cs

/-- Python `text.split('\n')`: split on every newline, keeping empty
pieces. -/
def splitNl (s : String) : List String :=
  splitNlAux [] s.data

/-- Python `sep.join(xs)`. -/
def joinSep (sep : String) : List String → String
  | [] => ""
  | [x] => x
  | x :: y :: rest => x ++ sep ++ joinSep sep (y :: rest)

/-- Boolean test: `needle` is a prefix of `hay` (on character lists). -/
def isPrefixCl : List Char → List Char → Bool
  | [], _ => true
  | _ :: _, [] => false
  | a :: as, b :: bs => a == b && isPrefixCl as bs

/-- Boolean test: `needle` occurs as a contiguous substring of `hay`. -/
def containsCl : List Char → List Char → Bool
  | needle, [] => needle.isEmpty
  | needle, c :: rest => isPrefixCl needle (c :: rest) || containsCl needle rest

/-- Python's `pat in hay` on strings: case-sensitive substring containment. -/
def containsStr (hay pat : String) : Bool :=
  containsCl pat.data hay.data

/-- The characters of `s`, each lowercased. -/
def lowerChars (s : String) : List Char :=
  s.data.map Char.toLower

/-- Case-insensitive substring containment, as produced by `re.IGNORECASE`
search for a literal pattern. -/
def containsCI (hay pat : String) : Bool :=
  containsCl (lowerChars pat) (lowerChars hay)

/-- `lowerPrefix pat cs`: `pat` (already lowercase) is a prefix of `cs`
up to lowercasing of `cs`. -/
def lowerPrefix : List Char → List Char → Bool
  | [], _ => true
  | _ :: _, [] => false
  | p :: ps, c :: cs => p == c.toLower && lowerPrefix ps cs

/-- Does `\d+\s*U` (for one of the lowercase unit literals `units`,
case-insensitively) match at the head of `cs`? -/
def numUnitAt (units : List (List Char)) (cs : List Char) : Bool :=
  match cs with
  | [] => false
  | c :: rest =>
    c.isDigit &&
      units.any (fun u =>
        lowerPrefix u ((rest.dropWhile Char.isDigit).dropWhile Char.isWhitespace))

/-- `re.search` existence for `\d+\s*U` over a line: try every start
position. -/
def numUnitSearch (units : List (List Char)) : List Char → Bool
  | [] => false
  | c :: rest => numUnitAt units (c :: rest) || numUnitSearch units rest

/-! ## Field classification (`parse_offer_text`, lines 74-77) -/

/-- `price_pattern = re.compile(r'(Rs\.|PKR|Consumer Price)', re.IGNORECASE)`
applied with `.search`. -/
def priceLine (line : String) : Bool :=
  containsCI line "rs." || containsCI line "pkr" || containsCI line "consumer price"

/-- `data_pattern = re.compile(r'(\d+\s*(GB|MB))', re.IGNORECASE)`. -/
def dataLine (line : String) : Bool :=
  numUnitSearch ["gb".data, "mb".data] line.data

/-- `mins_pattern = re.compile(r'(\d+\s*Mins)', re.IGNORECASE)`. -/
def minsLine (line : String) : Bool :=
  numUnitSearch ["mins".data] line.data

/-- `sms_pattern = re.compile(r'(\d+\s*SMS)', re.IGNORECASE)`. -/
def smsLine (line : String) : Bool :=
  numUnitSearch ["sms".data] line.data

/-- A character matched by the class `[\d,]`. -/
def isNumChar (c : Char) : Bool :=
  c.isDigit || c == ','

/-- `re.search(r'[\d,]+', line)`: the first maximal run of digits and
commas, if any. -/
def firstNumRun : List Char → Option (List Char)
  | [] => none
  | c :: rest =>
    if isNumChar c then some ((c :: rest).takeWhile isNumChar)
    else firstNumRun rest

/-- The price value taken from a matched price line: the first `[\d,]+`
run, or the whole line as fallback (lines 83-87). -/
def priceValue (line : String) : String :=
  match firstNumRun line.data with
  | some cs => String.mk cs
  | none => line

/-! ## `parse_offer_text` -/

/-- Result record of `parse_offer_text`; the Python function returns the
tuple `(name, validity, full_details, price)` in this order. -/
structure Offer where
  name : String
  validity : String
  details : String
  price : String
deriving DecidableEq, Repr

/-- Line 66: split on newlines, strip each line, drop empties. -/
def cleanLines (block : String) : List String :=
  ((splitNl block).map pyStrip).filter (fun l => l != "")

/-- Lines 80-89: find the first price line, compute the price from it and
remove it from the list (returning `("N/A", all lines)` when none
matches). -/
def extractPrice : List String → String × List String
  | [] => ("N/A", [])
  | l :: ls =>
    if priceLine l then (priceValue l, ls)
    else
      let r := extractPrice ls
      (r.1, l :: r.2)

/-- Index of the first price line, if any (the line whose removal the
loop at lines 80-89 performs). -/
def findPriceIdx : List String → Option Nat
  | [] => none
  | l :: ls =>
    if priceLine l then some 0
    else (findPriceIdx ls).map (· + 1)

/-- Lines 95-103: the occurrences of `line` appended to `details` — one
per matching pattern, in the order data, mins, SMS. -/
def detailAppends (line : String) : List String :=
  (if dataLine line then [line] else []) ++
    (if minsLine line then [line] else []) ++
      (if smsLine line then [line] else [])

/-- Lines 106-109: the validity keyword carried by a line, if any, under
the case-sensitive `if/elif` chain. -/
def lineKeyword (line : String) : Option String :=
  if containsStr line "Weekly" then some "Weekly"
  else if containsStr line "Monthly" then some "Monthly"
  else if containsStr line "Daily" then some "Daily"
  else if containsStr line "3 Day" then some "3 Days"
  else none

/-- The validity value after processing one line (keep the previous value
when no keyword matches). -/
def validityUpdate (prev line : String) : String :=
  (lineKeyword line).getD prev

/-- State of the loop at lines 92-112. -/
structure LoopState where
  details : List String
  validity : String
  filtered : List String
deriving Repr

/-- One iteration of the loop at lines 93-112. -/
def loopStep (st : LoopState) (line : String) : LoopState :=
  let det := detailAppends line
  { details := st.details ++ det
    validity := validityUpdate st.validity line
    filtered := if det.isEmpty then st.filtered ++ [line] else st.filtered }

/-- The whole loop at lines 92-112, starting from empty accumulators and
validity `"N/A"`. -/
def runLoop (lines : List String) : LoopState :=
  lines.foldl loopStep ⟨[], "N/A", []⟩

/-- Lines 116-119: the name filter. -/
def nameOk (line : String) : Bool :=
  decide (line.length > 3) && !containsStr line "Subscribe"
    && !containsStr line "Consumer Price"

/-- Lines 116-119: first acceptable remaining line, else the sentinel. -/
def pickName : List String → String
  | [] => "Unknown Bundle"
  | l :: ls => if nameOk l then l else pickName ls

/-- Line 121: comma-join of details, `"Check Site"` when empty. -/
def joinDetails : List String → String
  | [] => "Check Site"
  | ds => joinSep ", " ds

/-- `parse_offer_text` (src/main.py lines 62-122). -/
def parse_offer_text (block : String) : Offer :=
  let lines := cleanLines block
  let pr := extractPrice lines
  let st := runLoop pr.2
  { name := pickName st.filtered
    validity := st.validity
    details := joinDetails st.details
    price := pr.1 }

/-! ## `process_data` remark computation -/

/-- One historical ledger row, restricted to the columns `process_data`
reads (`Operator`, `Offer Name`, `Price`, `Details`), already passed
through Python `str(...)`. -/
structure HistRow where
  operator : String
  offerName : String
  price : String
  details : String
deriving DecidableEq, Repr

/-- Lines 199-203: the rows matching `(operator, name)` with the last one
(in append order, `match.iloc[-1]`) selected. -/
def lookupRow (ledger : List HistRow) (op nm : String) : Option HistRow :=
  (ledger.filter (fun r => r.operator == op && r.offerName == nm)).getLast?

/-- Lines 204-217: the remark computed against the last matching row. -/
def remarkAgainst (last : HistRow) (price details : String) : String :=
  let lastPrice := pyStrip last.price
  let lastDetails := pyStrip last.details
  let priceChanged := lastPrice != pyStrip price
  let detailsChanged := lastDetails != pyStrip details
  if !priceChanged && !detailsChanged then "Same as yesterday"
  else
    "Changed: " ++ joinSep ", "
      ((if priceChanged then ["Price: " ++ lastPrice ++ "->" ++ price] else []) ++
        (if detailsChanged then ["Details Updated"] else []))

/-- Lines 193-219: the remark attached to one new offer row. -/
def remarkFor (ledger : List HistRow) (op nm price details : String) : String :=
  match lookupRow ledger op nm with
  | none => "New Offer"
  | some r => remarkAgainst r price details

/-! ## Helper lemmas -/

theorem isPrefixCl_iff (n : List Char) : ∀ h, isPrefixCl n h = true ↔ n <+: h := by
  induction n with
  | nil => intro h; simp [isPrefixCl, List.nil_prefix]
  | cons a as ih =>
    intro h
    cases h with
    | nil => simp [isPrefixCl, List.prefix_nil]
    | cons b bs =>
      rw [show isPrefixCl (a :: as) (b :: bs) = (a == b && isPrefixCl as bs) from rfl,
        Bool.and_eq_true, beq_iff_eq, ih bs, List.cons_prefix_cons]

theorem containsCl_iff (n : List Char) : ∀ h, containsCl n h = true ↔ n <:+: h := by
  intro h
  induction h with
  | nil =>
    rw [show containsCl n [] = n.isEmpty from rfl]
    simp [List.infix_nil, List.isEmpty_iff]
  | cons c rest ih =>
    rw [show containsCl n (c :: rest) = (isPrefixCl n (c :: rest) || containsCl n rest) from rfl,
      Bool.or_eq_true, isPrefixCl_iff, ih, List.infix_cons_iff]

theorem containsStr_iff (hay pat : String) :
    containsStr hay pat = true ↔ pat.data <:+: hay.data :=
  containsCl_iff pat.data hay.data

theorem isPrefixCl_append (n : List Char) : ∀ t, isPrefixCl n (n ++ t) = true := by
  induction n with
  | nil => intro t; simp [isPrefixCl]
  | cons a as ih => intro t; simp [isPrefixCl, ih]

theorem containsCl_of_prefix {n h : List Char} (hp : isPrefixCl n h = true) :
    containsCl n h = true := by
  cases h with
  | nil => cases n with
    | nil => simp [containsCl]
    | cons a as => simp [isPrefixCl] at hp
  | cons c rest => simp [containsCl, hp]

theorem containsCl_append_left (p : List Char) {n h : List Char}
    (hc : containsCl n h = true) : containsCl n (p ++ h) = true := by
  induction p with
  | nil => simpa using hc
  | cons c cs ih => simp [containsCl, ih]

theorem containsCl_self_append (n t : List Char) : containsCl n (n ++ t) = true :=
  containsCl_of_prefix (isPrefixCl_append n t)

theorem mem_detailAppends {x line : String} (h : x ∈ detailAppends line) : x = line := by
  simp only [detailAppends, List.mem_append] at h
  rcases h with (h | h) | h <;> (split at h <;> simp_all)

theorem foldl_loopStep_details (ls : List String) : ∀ st : LoopState,
    (ls.foldl loopStep st).details = st.details ++ ls.flatMap detailAppends := by
  induction ls with
  | nil => intro st; simp
  | cons l ls ih =>
    intro st
    simp [List.foldl_cons, ih, loopStep, List.flatMap_cons, List.append_assoc]

theorem foldl_loopStep_validity (ls : List String) : ∀ st : LoopState,
    (ls.foldl loopStep st).validity = (ls.filterMap lineKeyword).getLastD st.validity := by
  induction ls with
  | nil => intro st; simp
  | cons l ls ih =>
    intro st
    rw [List.foldl_cons, ih]
    show (ls.filterMap lineKeyword).getLastD (validityUpdate st.validity l) = _
    rw [List.filterMap_cons]
    cases hk : lineKeyword l with
    | none =>
      have hv : validityUpdate st.validity l = st.validity := by
        simp [validityUpdate, hk]
      rw [hv]
    | some v =>
      have hv : validityUpdate st.validity l = v := by
        simp [validityUpdate, hk]
      rw [List.getLastD_cons, hv]

theorem foldl_loopStep_filtered (ls : List String) : ∀ (st : LoopState) (x : String),
    x ∈ (ls.foldl loopStep st).filtered →
      x ∈ st.filtered ∨ (x ∈ ls ∧ detailAppends x = []) := by
  induction ls with
  | nil => intro st x hx; exact Or.inl hx
  | cons l ls ih =>
    intro st x hx
    rw [List.foldl_cons] at hx
    rcases ih (loopStep st l) x hx with hmem | ⟨hls, hdet⟩
    · by_cases hde : (detailAppends l).isEmpty = true
      · simp only [loopStep, hde, if_pos] at hmem
        rcases List.mem_append.1 hmem with hmem | hmem
        · exact Or.inl hmem
        · have hxl : x = l := by simpa using hmem
          subst hxl
          exact Or.inr ⟨List.mem_cons_self x ls, List.isEmpty_iff.1 hde⟩
      · simp only [loopStep, hde, if_neg, Bool.false_eq_true, not_false_iff] at hmem
        exact Or.inl hmem
    · exact Or.inr ⟨List.mem_cons_of_mem l hls, hdet⟩

theorem pickName_spec : ∀ fs : List String,
    pickName fs = "Unknown Bundle" ∨ pickName fs ∈ fs := by
  intro fs
  induction fs with
  | nil => exact Or.inl rfl
  | cons l ls ih =>
    by_cases h : nameOk l = true
    · right; simp [pickName, h]
    · rcases ih with hs | hm
      · left; simpa [pickName, h] using hs
      · right; simp [pickName, h]; right; exact hm

theorem extractPrice_found : ∀ (ls : List String) (i : Nat),
    findPriceIdx ls = some i → (extractPrice ls).2 = ls.eraseIdx i := by
  intro ls
  induction ls with
  | nil => intro i h; simp [findPriceIdx] at h
  | cons l ls ih =>
    intro i h
    by_cases hp : priceLine l = true
    · simp [findPriceIdx, hp] at h
      subst h
      simp [extractPrice, hp, List.eraseIdx_cons_zero]
    · simp [findPriceIdx, hp] at h
      rcases h with ⟨j, hj, hji⟩
      subst hji
      simp [extractPrice, hp, List.eraseIdx_cons_succ, ih j hj]

theorem lookupRow_append_match (ledger : List HistRow) (r : HistRow) (op nm : String)
    (hop : r.operator = op) (hnm : r.offerName = nm) :
    lookupRow (ledger ++ [r]) op nm = some r := by
  unfold lookupRow
  rw [List.filter_append]
  have hr : List.filter (fun x => x.operator == op && x.offerName == nm) [r] = [r] := by
    simp [List.filter_cons, hop, hnm]
  rw [hr, List.getLast?_concat]

theorem containsCl_self (n : List Char) : containsCl n n = true := by
  simpa using containsCl_self_append n []

theorem remarkAgainst_same {r : HistRow} {price details : String}
    (hp : pyStrip r.price = pyStrip price) (hd : pyStrip r.details = pyStrip details) :
    remarkAgainst r price details = "Same as yesterday" := by
  unfold remarkAgainst
  simp [hp, hd]

theorem remarkAgainst_price_only {r : HistRow} {price details : String}
    (hp : pyStrip r.price ≠ pyStrip price) (hd : pyStrip r.details = pyStrip details) :
    remarkAgainst r price details
      = "Changed: " ++ ("Price: " ++ pyStrip r.price ++ "->" ++ price) := by
  unfold remarkAgainst
  simp [hd, hp, joinSep]

theorem remarkAgainst_details_only {r : HistRow} {price details : String}
    (hp : pyStrip r.price = pyStrip price) (hd : pyStrip r.details ≠ pyStrip details) :
    remarkAgainst r price details = "Changed: Details Updated" := by
  unfold remarkAgainst
  simp [hp, hd, joinSep]

theorem remarkAgainst_both {r : HistRow} {price details : String}
    (hp : pyStrip r.price ≠ pyStrip price) (hd : pyStrip r.details ≠ pyStrip details) :
    remarkAgainst r price details
      = "Changed: " ++ ("Price: " ++ pyStrip r.price ++ "->" ++ price ++ ", " ++ "Details Updated") := by
  unfold remarkAgainst
  simp [hp, hd, joinSep]

theorem remarkAgainst_contains_price {r : HistRow} {price details : String}
    (hp : pyStrip r.price ≠ pyStrip price) :
    containsStr (remarkAgainst r price details)
      ("Price: " ++ pyStrip r.price ++ "->" ++ price) = true := by
  by_cases hd : pyStrip r.details = pyStrip details
  · rw [remarkAgainst_price_only hp hd]
    unfold containsStr
    rw [String.data_append]
    exact containsCl_append_left _ (containsCl_self _)
  · rw [remarkAgainst_both hp hd]
    generalize ("Price: " ++ pyStrip r.price ++ "->" ++ price : String) = A
    unfold containsStr
    rw [String.data_append, String.data_append, String.data_append, List.append_assoc]
    exact containsCl_append_left _ (containsCl_self_append _ _)

/-! ## Claim theorems -/

/-- C1: for the input block whose lines are `["Weekly Super Card", "10GB Data",
"500 Mins", "Rs. 250 Incl. Tax"]`, `parse_offer_text` returns the name
`"Weekly Super Card"`, validity `"Weekly"`, details `"10GB Data, 500 Mins"`
and price `"250"`. -/
theorem parse_weekly_super_card_scenario :
    parse_offer_text "Weekly Super Card\n10GB Data\n500 Mins\nRs. 250 Incl. Tax" =
      { name := "Weekly Super Card", validity := "Weekly",
        details := "10GB Data, 500 Mins", price := "250" } := by
  decide

/-- C2: the change-detection remark of `process_data` is `"New Offer"` when
the ledger holds no row for `(operator, name)`; the `"Same"` category
(`"Same as yesterday"`) when the most recent matching row agrees on trimmed
price and trimmed details; contains the substring `"Price: <old>-><new>"`
whenever the trimmed price differs (and equals exactly that fragment after
`"Changed: "` when only the price differs); equals
`"Changed: Details Updated"` when only the details differ; and concatenates
both fragments comma-separated after `"Changed: "` when both differ. -/
theorem remark_categories (ledger : List HistRow) (op nm price details : String) :
    (lookupRow ledger op nm = none →
      remarkFor ledger op nm price details = "New Offer") ∧
    ∀ r, lookupRow ledger op nm = some r →
      (pyStrip r.price = pyStrip price → pyStrip r.details = pyStrip details →
        remarkFor ledger op nm price details = "Same as yesterday") ∧
      (pyStrip r.price ≠ pyStrip price →
        containsStr (remarkFor ledger op nm price details)
          ("Price: " ++ pyStrip r.price ++ "->" ++ price) = true) ∧
      (pyStrip r.price ≠ pyStrip price → pyStrip r.details = pyStrip details →
        remarkFor ledger op nm price details
          = "Changed: " ++ ("Price: " ++ pyStrip r.price ++ "->" ++ price)) ∧
      (pyStrip r.price = pyStrip price → pyStrip r.details ≠ pyStrip details →
        remarkFor ledger op nm price details = "Changed: Details Updated") ∧
      (pyStrip r.price ≠ pyStrip price → pyStrip r.details ≠ pyStrip details →
        remarkFor ledger op nm price details
          = "Changed: " ++ ("Price: " ++ pyStrip r.price ++ "->" ++ price ++ ", "
              ++ "Details Updated")) := by
  constructor
  · intro h
    unfold remarkFor
    rw [h]
  · intro r hr
    have hfor : remarkFor ledger op nm price details = remarkAgainst r price details := by
      unfold remarkFor
      rw [hr]
    rw [hfor]
    exact ⟨fun hp hd => remarkAgainst_same hp hd,
      fun hp => remarkAgainst_contains_price hp,
      fun hp hd => remarkAgainst_price_only hp hd,
      fun hp hd => remarkAgainst_details_only hp hd,
      fun hp hd => remarkAgainst_both hp hd⟩

/-- Witness for C2: with one prior row priced `"250"` and identical details,
a new price `"300"` yields the remark `"Changed: Price: 250->300"`. -/
theorem remark_categories_witness :
    remarkFor [⟨"Zong", "X", "250", "10GB"⟩] "Zong" "X" "300" "10GB"
      = "Changed: Price: 250->300" := by
  have h := ((remark_categories [⟨"Zong", "X", "250", "10GB"⟩] "Zong" "X" "300" "10GB").2
    ⟨"Zong", "X", "250", "10GB"⟩ (by decide)).2.2.1 (by decide) (by decide)
  rw [h]
  decide

/-- C3: the line chosen as the price line (the first one matching the price
pattern, at index `i`) is removed before detail and name classification:
details and the name are drawn only from the other lines, and the name is
additionally never a detail line. -/
theorem price_role_exclusion (block : String) (i : Nat)
    (h : findPriceIdx (cleanLines block) = some i) :
    (extractPrice (cleanLines block)).2 = (cleanLines block).eraseIdx i ∧
    (∀ d ∈ (runLoop (extractPrice (cleanLines block)).2).details,
      d ∈ (cleanLines block).eraseIdx i) ∧
    ((parse_offer_text block).name = "Unknown Bundle" ∨
      ((parse_offer_text block).name ∈ (cleanLines block).eraseIdx i ∧
        detailAppends (parse_offer_text block).name = [])) := by
  have he : (extractPrice (cleanLines block)).2 = (cleanLines block).eraseIdx i :=
    extractPrice_found _ i h
  refine ⟨he, ?_, ?_⟩
  · intro d hd
    rw [show runLoop (extractPrice (cleanLines block)).2
        = ((extractPrice (cleanLines block)).2).foldl loopStep ⟨[], "N/A", []⟩ from rfl,
      foldl_loopStep_details] at hd
    rcases List.mem_flatMap.1 (by simpa using hd) with ⟨l, hl, hdl⟩
    rw [← he]
    exact (mem_detailAppends hdl) ▸ hl
  · have hname : (parse_offer_text block).name
        = pickName (runLoop (extractPrice (cleanLines block)).2).filtered := rfl
    rcases pickName_spec (runLoop (extractPrice (cleanLines block)).2).filtered with hs | hm
    · exact Or.inl (hname.trans hs)
    · rcases foldl_loopStep_filtered _ _ _ hm with habs | ⟨hin, hdet⟩
      · simp at habs
      · refine Or.inr ⟨?_, ?_⟩
        · rw [hname, ← he]
          exact hin
        · rw [hname]
          exact hdet

/-- Witness for C3: on the block `"Rs. 100\nMega Offer"` the price line is
found at index 0 and the remaining lines are exactly the block without it. -/
theorem price_role_exclusion_witness :
    findPriceIdx (cleanLines "Rs. 100\nMega Offer") = some 0 ∧
    (extractPrice (cleanLines "Rs. 100\nMega Offer")).2
      = (cleanLines "Rs. 100\nMega Offer").eraseIdx 0 :=
  ⟨by decide, (price_role_exclusion "Rs. 100\nMega Offer" 0 (by decide)).1⟩

/-- C4: `parse_offer_text` is total — on every block it returns exactly one
record — and on a block with no usable line it returns the sentinel record
`("Unknown Bundle", "N/A", "Check Site", "N/A")`. -/
theorem parse_total (block : String) :
    (∃ o : Offer, parse_offer_text block = o) ∧
    parse_offer_text "" =
      { name := "Unknown Bundle", validity := "N/A",
        details := "Check Site", price := "N/A" } :=
  ⟨⟨parse_offer_text block, rfl⟩, by decide⟩

/-- C5 counterexample: a line containing only `"Incl. Tax"` is NOT
classified as a price line (the compiled pattern has no `Incl. Tax`
alternative), refuting the claim that it is. -/
theorem inclTax_not_price_cex :
    priceLine "Incl. Tax" = false ∧
    (parse_offer_text "Incl. Tax").price = "N/A" := by
  decide

/-- C5 amended: a line is treated as a price line if and only if it
contains one of the markers `Rs.`, `PKR`, `Consumer Price`,
case-insensitively; `Incl. Tax` is not among the markers. -/
theorem priceLine_markers (line : String) :
    priceLine line = true ↔
      ("rs.".data <:+: lowerChars line ∨ "pkr".data <:+: lowerChars line ∨
        "consumer price".data <:+: lowerChars line) := by
  have h1 : lowerChars "rs." = "rs.".data := by decide
  have h2 : lowerChars "pkr" = "pkr".data := by decide
  have h3 : lowerChars "consumer price" = "consumer price".data := by decide
  rw [show priceLine line
      = (containsCI line "rs." || containsCI line "pkr" || containsCI line "consumer price")
      from rfl, Bool.or_eq_true, Bool.or_eq_true]
  unfold containsCI
  rw [h1, h2, h3, containsCl_iff, containsCl_iff, containsCl_iff, or_assoc]

/-- Witness for C5 amended: `"PKR 100"` is a price line via the `PKR`
marker. -/
theorem priceLine_markers_witness : priceLine "PKR 100" = true :=
  (priceLine_markers "PKR 100").mpr (Or.inr (Or.inl (by decide)))

/-- C6 counterexample: a line containing lowercase `"weekly"` leaves the
validity at `"N/A"`, refuting case-insensitive keyword matching. -/
theorem lowercase_weekly_cex :
    (parse_offer_text "great weekly deal").validity = "N/A" := by
  decide

/-- C6 amended: validity keyword matching is case-sensitive — a line
containing `"Weekly"` in this exact casing yields `"Weekly"`, while a line
containing none of the exact-case keywords `"Weekly"`, `"Monthly"`,
`"Daily"`, `"3 Day"` leaves the validity unchanged (so lowercase variants
do not match). -/
theorem validity_case_sensitive (prev line : String) :
    ("Weekly".data <:+: line.data → validityUpdate prev line = "Weekly") ∧
    (¬ "Weekly".data <:+: line.data → ¬ "Monthly".data <:+: line.data →
      ¬ "Daily".data <:+: line.data → ¬ "3 Day".data <:+: line.data →
      validityUpdate prev line = prev) := by
  constructor
  · intro hw
    have hb : containsStr line "Weekly" = true := (containsStr_iff _ _).2 hw
    simp [validityUpdate, lineKeyword, hb]
  · intro hw hm hd ht
    simp only [validityUpdate, lineKeyword, containsStr_iff]
    rw [if_neg, if_neg, if_neg, if_neg] <;>
      simp [hw, hm, hd, ht, containsStr_iff]

/-- Witness for C6 amended: lowercase `"weekly bundle"` does not change the
validity. -/
theorem validity_case_sensitive_witness :
    validityUpdate "N/A" "weekly bundle" = "N/A" :=
  (validity_case_sensitive "N/A" "weekly bundle").2
    (by decide) (by decide) (by decide) (by decide)

/-- C7 counterexample: the single line `"10GB 500 Mins"` matches both the
data and the minutes rule and is appended twice, so it appears twice in the
comma-joined details — refuting "appended at most once". -/
theorem double_detail_cex :
    (parse_offer_text "10GB 500 Mins").details
      = "10GB 500 Mins, 10GB 500 Mins" := by
  decide

/-- C7 amended: every non-price line is appended to the details accumulator
once per matching rule (data, minutes, SMS, in this order), so a line
matching k rules appears k times; each appended entry equals the line
itself. -/
theorem details_once_per_rule (block : String) :
    (parse_offer_text block).details
      = joinDetails (((extractPrice (cleanLines block)).2).flatMap detailAppends) ∧
    ∀ line : String,
      (detailAppends line).length
        = (if dataLine line then 1 else 0) + (if minsLine line then 1 else 0)
            + (if smsLine line then 1 else 0) ∧
      ∀ x ∈ detailAppends line, x = line := by
  constructor
  · show joinDetails (runLoop (extractPrice (cleanLines block)).2).details = _
    rw [show runLoop (extractPrice (cleanLines block)).2
        = ((extractPrice (cleanLines block)).2).foldl loopStep ⟨[], "N/A", []⟩ from rfl,
      foldl_loopStep_details, List.nil_append]
  · intro line
    refine ⟨?_, fun x hx => mem_detailAppends hx⟩
    unfold detailAppends
    by_cases h1 : dataLine line = true <;> by_cases h2 : minsLine line = true <;>
      by_cases h3 : smsLine line = true <;> simp [h1, h2, h3]

/-- Witness for C7 amended: the details output on `"10GB 500 Mins"` is the
comma-join of the per-rule appends. -/
theorem details_once_per_rule_witness :
    (parse_offer_text "10GB 500 Mins").details
      = joinDetails (((extractPrice (cleanLines "10GB 500 Mins")).2).flatMap detailAppends) :=
  (details_once_per_rule "10GB 500 Mins").1

/-- C8: the resulting validity equals the keyword carried by the last
qualifying line among the lines remaining after price removal (later lines
overwrite earlier assignments), `"N/A"` when none qualifies. -/
theorem validity_last_match (block : String) :
    (parse_offer_text block).validity
      = ((((extractPrice (cleanLines block)).2).filterMap lineKeyword).getLastD "N/A") := by
  show (runLoop (extractPrice (cleanLines block)).2).validity = _
  rw [show runLoop (extractPrice (cleanLines block)).2
      = ((extractPrice (cleanLines block)).2).foldl loopStep ⟨[], "N/A", []⟩ from rfl,
    foldl_loopStep_validity]

/-- C9: when several ledger rows share the `(operator, name)` key, the most
recently appended one is authoritative: appending a matching row makes it
the row looked up, and the remark is computed against it. -/
theorem lookup_last_appended (ledger : List HistRow) (r : HistRow)
    (op nm price details : String)
    (hop : r.operator = op) (hnm : r.offerName = nm) :
    lookupRow (ledger ++ [r]) op nm = some r ∧
    remarkFor (ledger ++ [r]) op nm price details = remarkAgainst r price details := by
  have h := lookupRow_append_match ledger r op nm hop hnm
  refine ⟨h, ?_⟩
  unfold remarkFor
  rw [h]

/-- Witness for C9: with an older row priced `"100"` and a newer appended
row priced `"250"`, the lookup returns the newer row and the remark is
computed against it. -/
theorem lookup_last_appended_witness :
    lookupRow [⟨"Zong", "X", "100", "old"⟩, ⟨"Zong", "X", "250", "10GB"⟩] "Zong" "X"
      = some ⟨"Zong", "X", "250", "10GB"⟩ ∧
    remarkFor [⟨"Zong", "X", "100", "old"⟩, ⟨"Zong", "X", "250", "10GB"⟩]
        "Zong" "X" "250" "10GB"
      = remarkAgainst ⟨"Zong", "X", "250", "10GB"⟩ "250" "10GB" :=
  lookup_last_appended [⟨"Zong", "X", "100", "old"⟩] ⟨"Zong", "X", "250", "10GB"⟩
    "Zong" "X" "250" "10GB" rfl rfl

/-- C10: within a single line, exact-case keyword precedence is `Weekly`
over `Monthly` over `Daily` over `3 Day`: a line containing `"Weekly"`
yields `"Weekly"` whatever else it contains, and a keyword lower in the
chain only applies when no higher keyword occurs on the line. -/
theorem validity_precedence (prev line : String) :
    ("Weekly".data <:+: line.data → validityUpdate prev line = "Weekly") ∧
    (¬ "Weekly".data <:+: line.data → "Monthly".data <:+: line.data →
      validityUpdate prev line = "Monthly") ∧
    (¬ "Weekly".data <:+: line.data → ¬ "Monthly".data <:+: line.data →
      "Daily".data <:+: line.data → validityUpdate prev line = "Daily") ∧
    (¬ "Weekly".data <:+: line.data → ¬ "Monthly".data <:+: line.data →
      ¬ "Daily".data <:+: line.data → "3 Day".data <:+: line.data →
      validityUpdate prev line = "3 Days") := by
  refine ⟨?_, ?_, ?_, ?_⟩
  · intro hw
    have hb : containsStr line "Weekly" = true := (containsStr_iff _ _).2 hw
    simp [validityUpdate, lineKeyword, hb]
  · intro hw hm
    have hb : containsStr line "Monthly" = true := (containsStr_iff _ _).2 hm
    simp only [validityUpdate, lineKeyword]
    rw [if_neg, if_pos hb] <;> simp [hw, containsStr_iff]
  · intro hw hm hd
    have hb : containsStr line "Daily" = true := (containsStr_iff _ _).2 hd
    simp only [validityUpdate, lineKeyword]
    rw [if_neg, if_neg, if_pos hb] <;> simp [hw, hm, containsStr_iff]
  · intro hw hm hd ht
    have hb : containsStr line "3 Day" = true := (containsStr_iff _ _).2 ht
    simp only [validityUpdate, lineKeyword]
    rw [if_neg, if_neg, if_neg, if_pos hb] <;> simp [hw, hm, hd, containsStr_iff]

/-- Witness for C10: a line containing both `"Weekly"` and `"Monthly"`
yields `"Weekly"`. -/
theorem validity_precedence_witness :
    validityUpdate "N/A" "Weekly Monthly combo" = "Weekly" :=
  (validity_precedence "N/A" "Weekly Monthly combo").1 (by decide)

end Telco
